import Mathlib

/-!
Verification of the test-plan import backend
(`src/backend/src/api/testplan_import.py`, `routes_testplan.py`, `models.py`).

Python strings are modelled as lists of characters (`PyStr`), with the ASCII
semantics of `str.strip`, `str.lower` and `str.isalnum`, which is what all the
inputs in this development exercise.  Fallible endpoints return `Except HErr`,
mirroring `HTTPException(status_code, detail)`.
-/

/-- A Python string, modelled as its sequence of characters. -/
abbrev PyStr := List Char

/-- Conversion from a Lean string literal to a `PyStr`. -/
def lit (s : String) : PyStr := s.data

/-- The characters stripped by Python `str.strip()` with no argument. -/
def pyIsSpace (c : Char) : Bool :=
  c == ' ' || c == '\t' || c == '\n' || c == '\r' || c == '\x0b' || c == '\x0c'

/-- Python `s.strip()`: drop leading and trailing whitespace. -/
def pyStrip (s : PyStr) : PyStr :=
  ((s.dropWhile pyIsSpace).reverse.dropWhile pyIsSpace).reverse

/-- Python `s.lower()` (ASCII semantics). -/
def pyLower (s : PyStr) : PyStr := s.map Char.toLower

/-- `_norm_key` from `testplan_import.py`: normalize a header key for matching
(strip, lowercase, remove non-alphanumeric characters). -/
def _norm_key (s : PyStr) : PyStr :=
  (pyLower (pyStrip s)).filter Char.isAlphanum

/-- `_HEADER_SYNONYMS` from `testplan_import.py`, in source order.  The Python
dict literal repeats the key `"descriptionsteps"` with the same value; dict
construction collapses the repetition, so it appears once here. -/
def _HEADER_SYNONYMS : List (PyStr × PyStr) :=
  [(lit ("suitename"), lit ("suite_name")),
   (lit ("suite"), lit ("suite_name")),
   (lit ("suiteid"), lit ("suite_name")),
   (lit ("caseid"), lit ("case_id")),
   (lit ("id"), lit ("case_id")),
   (lit ("testcaseid"), lit ("case_id")),
   (lit ("tcid"), lit ("case_id")),
   (lit ("title"), lit ("title")),
   (lit ("name"), lit ("title")),
   (lit ("testcasename"), lit ("title")),
   (lit ("description"), lit ("description")),
   (lit ("descriptionsteps"), lit ("steps")),
   (lit ("steps"), lit ("steps")),
   (lit ("procedure"), lit ("steps")),
   (lit ("expected"), lit ("expected_result")),
   (lit ("expectedresult"), lit ("expected_result")),
   (lit ("result"), lit ("expected_result")),
   (lit ("priority"), lit ("priority")),
   (lit ("prio"), lit ("priority")),
   (lit ("category"), lit ("category")),
   (lit ("testarea"), lit ("category")),
   (lit ("area"), lit ("category")),
   (lit ("subcategory"), lit ("subcategory")),
   (lit ("subcat"), lit ("subcategory")),
   (lit ("preconditions"), lit ("preconditions")),
   (lit ("precondition"), lit ("preconditions")),
   (lit ("prerequisites"), lit ("preconditions")),
   (lit ("tags"), lit ("tags")),
   (lit ("tag"), lit ("tags"))]

/-- Dictionary lookup in `_HEADER_SYNONYMS` (`_HEADER_SYNONYMS.get(k)`). -/
def synFind (k : PyStr) : Option PyStr :=
  (_HEADER_SYNONYMS.find? (fun p => p.1 == k)).map (fun p => p.2)

/-- Header resolution as performed in `normalize_rows`:
`_HEADER_SYNONYMS.get(_norm_key(str(k)), _norm_key(str(k)))`. -/
def resolve_header (k : PyStr) : PyStr :=
  (synFind (_norm_key k)).getD (_norm_key k)

/-- `_STANDARD_FIELDS` from `testplan_import.py`. -/
def _STANDARD_FIELDS : List PyStr :=
  [lit ("suite_name"), lit ("case_id"), lit ("title"), lit ("description"),
   lit ("priority"), lit ("category"), lit ("subcategory"),
   lit ("preconditions"), lit ("steps"), lit ("expected_result"), lit ("tags")]

/-- Helper for `_map_headers`: walk the headers with their column index. -/
def _map_headers_go : Nat → List PyStr → List (Nat × PyStr)
  | _, [] => []
  | idx, h :: rest =>
    let nk := _norm_key h
    match synFind nk with
    | some f => (idx, f) :: _map_headers_go (idx + 1) rest
    | none =>
      if nk ∈ _STANDARD_FIELDS then (idx, nk) :: _map_headers_go (idx + 1) rest
      else _map_headers_go (idx + 1) rest

/-- `_map_headers` from `testplan_import.py`: column index to standard field
name; unknown columns are ignored. -/
def _map_headers (headers : List PyStr) : List (Nat × PyStr) :=
  _map_headers_go 0 headers

/-- `_coerce_str` from `testplan_import.py`: `None` stays absent, otherwise
strip and turn an all-whitespace value into absence. -/
def _coerce_str (v : Option PyStr) : Option PyStr :=
  match v with
  | none => none
  | some s =>
    let t := pyStrip s
    if t.isEmpty then none else some t

/-- Line-ending normalization `v.replace("\r\n", "\n").replace("\r", "\n")`:
a CRLF pair becomes one LF, a lone CR becomes LF. -/
def normNl : PyStr → PyStr
  | [] => []
  | c :: rest =>
    if c = '\r' then
      match rest with
      | c2 :: rest2 => if c2 = '\n' then '\n' :: normNl rest2 else '\n' :: normNl (c2 :: rest2)
      | [] => ['\n']
    else c :: normNl rest

/-- Python `s.split(d)` for a one-character separator `d`. -/
def splitOnC (d : Char) : PyStr → List PyStr
  | [] => [[]]
  | c :: rest =>
    if c = d then [] :: splitOnC d rest
    else
      match splitOnC d rest with
      | [] => [[c]]
      | h :: t => (c :: h) :: t

/-- Split on `d`, strip every piece and drop the empty ones — the common core
of `_split_multiline_steps` and `_split_tags`. -/
def nlp (d : Char) (m : PyStr) : List PyStr :=
  ((splitOnC d m).map pyStrip).filter (fun p => !p.isEmpty)

/-- `_split_multiline_steps` from `testplan_import.py`. -/
def _split_multiline_steps (value : Option PyStr) : Option (List PyStr) :=
  match value with
  | none => none
  | some value' =>
    let v := pyStrip value'
    if v.isEmpty then none
    else
      let parts := nlp '\n' (normNl v)
      if parts.isEmpty then none else some parts

/-- `v.replace(";", ",")`. -/
def semiRepl (s : PyStr) : PyStr := s.map (fun c => if c = ';' then ',' else c)

/-- `_split_tags` from `testplan_import.py`. -/
def _split_tags (value : Option PyStr) : Option (List PyStr) :=
  match value with
  | none => none
  | some value' =>
    let v := pyStrip value'
    if v.isEmpty then none
    else
      let raw := nlp ',' (semiRepl v)
      if raw.isEmpty then none else some raw

/-- Steps post-processing as the specification words it: normalize CRLF and CR
to LF, split on LF, trim each line, drop empty lines; an empty result is
absent. -/
def stepsSpec (v : PyStr) : Option (List PyStr) :=
  let parts := nlp '\n' (normNl v)
  if parts.isEmpty then none else some parts

/-- Tags post-processing as the specification words it: split on comma or
semicolon (semicolons are folded into commas first), trim each piece, drop the
empty ones; an empty result is absent. -/
def tagsSpec (v : PyStr) : Option (List PyStr) :=
  let parts := nlp ',' (semiRepl v)
  if parts.isEmpty then none else some parts

/-- A raw record: the items of a parsed row dict, keyed by original header.
`csv.DictReader` can produce a `None` key (extra cells), hence `Option` keys;
cell values are `None` or their string rendering. -/
abbrev RawRecord := List (Option PyStr × Option PyStr)

/-- The `key_to_val` dict of `normalize_rows`, queried at `key`: every item is
rekeyed through the header resolver (`None` keys skipped) and a later
assignment to the same resolved key overwrites an earlier one. -/
def dictGet (raw : RawRecord) (key : PyStr) : Option (Option PyStr) :=
  raw.foldl
    (fun acc kv =>
      match kv.1 with
      | none => acc
      | some k => if resolve_header k = key then some kv.2 else acc)
    none

/-- `key_to_val.get(key)`: a missing key and a present-but-`None` value both
read as `None`, exactly as in the Python code. -/
def getVal (raw : RawRecord) (key : PyStr) : Option PyStr :=
  match dictGet raw key with
  | none => none
  | some v => v

/-- The `NormalizedRow` dataclass of `testplan_import.py`. -/
structure NormalizedRow where
  suite_name : PyStr
  case_id : Option PyStr
  title : PyStr
  description : Option PyStr
  priority : Option PyStr
  category : Option PyStr
  subcategory : Option PyStr
  preconditions : Option PyStr
  steps : Option (List PyStr)
  expected_result : Option PyStr
  tags : Option (List PyStr)
deriving DecidableEq

/-- The title computed for a raw row:
`_coerce_str(key_to_val.get("title")) or _coerce_str(key_to_val.get("name")) or ""`. -/
def rowTitle (raw : RawRecord) : PyStr :=
  match _coerce_str (getVal raw (lit ("title"))) with
  | some t => t
  | none =>
    match _coerce_str (getVal raw (lit ("name"))) with
    | some t => t
    | none => []

/-- The `NormalizedRow` built by `normalize_rows` for a kept raw row. -/
def mkRow (raw : RawRecord) : NormalizedRow :=
  { suite_name := (_coerce_str (getVal raw (lit ("suite_name")))).getD (lit ("Default"))
    case_id := _coerce_str (getVal raw (lit ("case_id")))
    title := rowTitle raw
    description := _coerce_str (getVal raw (lit ("description")))
    priority := _coerce_str (getVal raw (lit ("priority")))
    category := _coerce_str (getVal raw (lit ("category")))
    subcategory := _coerce_str (getVal raw (lit ("subcategory")))
    preconditions := _coerce_str (getVal raw (lit ("preconditions")))
    steps :=
      match getVal raw (lit ("steps")) with
      | none => none
      | some v => _split_multiline_steps (_coerce_str (some v))
    expected_result := _coerce_str (getVal raw (lit ("expected_result")))
    tags :=
      match getVal raw (lit ("tags")) with
      | none => none
      | some v => _split_tags (_coerce_str (some v)) }

/-- The warning `f"Row {i}: missing title/name; skipped."`. -/
def warnMsg (i : Nat) : PyStr :=
  lit ("Row ") ++ (Nat.repr i).data ++ lit (": missing title/name; skipped.")

/-- The loop body of `normalize_rows`, with the 1-based row counter. -/
def normalize_rows_go : Nat → List RawRecord → List NormalizedRow × List PyStr
  | _, [] => ([], [])
  | i, raw :: rest =>
    let res := normalize_rows_go (i + 1) rest
    if rowTitle raw = [] then (res.1, warnMsg i :: res.2)
    else (mkRow raw :: res.1, res.2)

/-- `normalize_rows` from `testplan_import.py`: returns (rows, warnings). -/
def normalize_rows (raws : List RawRecord) : List NormalizedRow × List PyStr :=
  normalize_rows_go 1 raws

/-- Pair each list element with its index, starting at `start`. -/
def withIdx (start : Nat) : List α → List (Nat × α)
  | [] => []
  | a :: rest => (start, a) :: withIdx (start + 1) rest

/-- An `HTTPException`: status code and detail message. -/
structure HErr where
  status : Nat
  detail : PyStr
deriving DecidableEq

/-- The message `f"CSV too large; max {max_rows} rows."`. -/
def csvTooLargeMsg (max_rows : Nat) : PyStr :=
  lit ("CSV too large; max ") ++ (Nat.repr max_rows).data ++ lit (" rows.")

/-- The row loop of `parse_csv`: `for i, row in enumerate(reader, start=1)`,
failing with 413 as soon as `i > max_rows`. -/
def csvLoop (max_rows : Nat) : Nat → List RawRecord → Except HErr (List RawRecord)
  | _, [] => .ok []
  | i, r :: rest =>
    if max_rows < i then .error ⟨413, csvTooLargeMsg max_rows⟩
    else (csvLoop max_rows (i + 1) rest).map (fun rs => r :: rs)

/-- `parse_csv` from `testplan_import.py`.  UTF-8 decoding and CSV tokenizing
are done by the standard library; the model receives `reader.fieldnames`
(`none` when the stream is empty) and the `DictReader` record sequence, and
keeps the header check and the row-count limit from the source. -/
def parse_csv (fieldnames : Option (List PyStr)) (records : List RawRecord)
    (max_rows : Nat) : Except HErr (List RawRecord) :=
  match fieldnames with
  | none => .error ⟨400, lit ("CSV must include a header row.")⟩
  | some fns =>
    if fns.isEmpty then .error ⟨400, lit ("CSV must include a header row.")⟩
    else csvLoop max_rows 1 records

/-- The message `f"XLSX too large; max {max_rows} rows."`. -/
def xlsxTooLargeMsg (max_rows : Nat) : PyStr :=
  lit ("XLSX too large; max ") ++ (Nat.repr max_rows).data ++ lit (" rows.")

/-- Python dict assignment `rec[k] = v`: overwrite in place if the key exists,
append otherwise. -/
def dictAssign (acc : List (PyStr × Option PyStr)) (k : PyStr) (v : Option PyStr) :
    List (PyStr × Option PyStr) :=
  if acc.any (fun p => p.1 == k) then
    acc.map (fun p => if p.1 == k then (k, v) else p)
  else acc ++ [(k, v)]

/-- Record construction in `parse_xlsx`: `for c, h in enumerate(headers)`,
skipping blank headers, reading `row[c]` (or `None` past the row's end). -/
def mkRecGo (row : List (Option PyStr)) : Nat → List PyStr →
    List (PyStr × Option PyStr) → List (PyStr × Option PyStr)
  | _, [], acc => acc
  | c, h :: hs, acc =>
    mkRecGo row (c + 1) hs (if h.isEmpty then acc else dictAssign acc h (row.getD c none))

/-- The `rec` dict built by `parse_xlsx` for one data row. -/
def mkRec (headers : List PyStr) (row : List (Option PyStr)) : RawRecord :=
  (mkRecGo row 0 headers []).map (fun p => (some p.1, p.2))

/-- `all(v is None or str(v).strip() == "" for v in rec.values())`. -/
def isBlankRec (r0 : List (PyStr × Option PyStr)) : Bool :=
  r0.all (fun p =>
    match p.2 with
    | none => true
    | some s => (pyStrip s).isEmpty)

/-- The data-row loop of `parse_xlsx`: 1-based index over all data rows, 413
past the limit, completely blank rows skipped. -/
def xlsxLoop (headers : List PyStr) (max_rows : Nat) :
    Nat → List (List (Option PyStr)) → Except HErr (List RawRecord)
  | _, [] => .ok []
  | idx, row :: rest =>
    if max_rows < idx then .error ⟨413, xlsxTooLargeMsg max_rows⟩
    else
      let r0 := mkRecGo row 0 headers []
      if isBlankRec r0 then xlsxLoop headers max_rows (idx + 1) rest
      else (xlsxLoop headers max_rows (idx + 1) rest).map
        (fun rs => r0.map (fun p => (some p.1, p.2)) :: rs)

/-- Header-cell rendering in `parse_xlsx`:
`str(h).strip() if h is not None else ""`. -/
def headerCell (h : Option PyStr) : PyStr :=
  match h with
  | none => []
  | some s => pyStrip s

/-- `parse_xlsx` from `testplan_import.py`.  Workbook decoding is done by
openpyxl; the model receives the value rows of the first sheet (first row =
headers) and keeps the header checks, the row-count limit and the blank-row
skipping from the source. -/
def parse_xlsx (sheetRows : List (List (Option PyStr))) (max_rows : Nat) :
    Except HErr (List RawRecord) :=
  match sheetRows with
  | [] => .error ⟨400, lit ("XLSX appears to be empty.")⟩
  | headers_row :: data =>
    let headers := headers_row.map headerCell
    if headers.all (fun h => h.isEmpty) then
      .error ⟨400, lit ("XLSX header row is empty.")⟩
    else xlsxLoop headers max_rows 1 data

/-- The `Suite` ORM row (`models.py`): unique name, autoincrement id. -/
structure Suite where
  id : Nat
  name : PyStr
deriving DecidableEq

/-- The `test_cases` ORM row (`models.py`); `steps` and `tags` hold the lists
whose JSON text is stored (the JSON encoding is injective and external), and
`created_at` is an abstract timestamp. -/
structure TestCase where
  id : Nat
  suite_id : Nat
  case_id : Option PyStr
  title : PyStr
  description : Option PyStr
  priority : Option PyStr
  category : Option PyStr
  subcategory : Option PyStr
  preconditions : Option PyStr
  steps : Option (List PyStr)
  expected_result : Option PyStr
  tags : Option (List PyStr)
  created_at : Nat
deriving DecidableEq

/-- The committed database state, with the autoincrement counters. -/
structure Store where
  suites : List Suite
  test_cases : List TestCase
  nextSuiteId : Nat
  nextCaseId : Nat
deriving DecidableEq

/-- A database with no suites and no test cases. -/
def emptyStore : Store := ⟨[], [], 1, 1⟩

/-- A SQLAlchemy session over MySQL: committed rows plus the rows flushed in
the current (uncommitted) transaction.  `Session.rollback()` discards the
pending rows; the autoincrement counters are not rolled back. -/
structure Sess where
  committedSuites : List Suite
  committedCases : List TestCase
  pendSuites : List Suite
  pendCases : List TestCase
  nextSuiteId : Nat
  nextCaseId : Nat
deriving DecidableEq

/-- Open a session on a committed store. -/
def sessOf (st : Store) : Sess :=
  ⟨st.suites, st.test_cases, [], [], st.nextSuiteId, st.nextCaseId⟩

/-- `db.rollback()`: discard all uncommitted (flushed) rows of the
transaction. -/
def rollbackSess (s : Sess) : Sess :=
  { s with pendSuites := [], pendCases := [] }

/-- `db.commit()`: make the pending rows durable. -/
def commitSess (s : Sess) : Store :=
  ⟨s.committedSuites ++ s.pendSuites, s.committedCases ++ s.pendCases,
   s.nextSuiteId, s.nextCaseId⟩

/-- The suites visible to a `select` inside the transaction: committed rows
plus rows flushed earlier in the same transaction. -/
def allSuites (s : Sess) : List Suite := s.committedSuites ++ s.pendSuites

/-- The test cases visible inside the transaction. -/
def allCases (s : Sess) : List TestCase := s.committedCases ++ s.pendCases

/-- `select(Suite).where(Suite.name == name)`. -/
def findSuiteByName (s : Sess) (n : PyStr) : Option Suite :=
  (allSuites s).find? (fun su => su.name == n)

/-- Whether inserting a test case with this `(suite_id, case_id)` raises an
`IntegrityError` on the `uq_suite_case_id` unique constraint.  A `NULL`
`case_id` never conflicts: MySQL unique indexes admit repeated `NULL`s. -/
def caseConflict (s : Sess) (sid : Nat) (cid : Option PyStr) : Bool :=
  match cid with
  | none => false
  | some c => (allCases s).any (fun tc => tc.suite_id == sid && tc.case_id == some c)

/-- The `TestCase(...)` constructed by `import_testplan` for a normalized row,
with the id and timestamp the database assigns at flush time. -/
def mkTestCase (sid : Nat) (r : NormalizedRow) (tid ts : Nat) : TestCase :=
  { id := tid
    suite_id := sid
    case_id := r.case_id
    title := r.title
    description := r.description
    priority := r.priority
    category := r.category
    subcategory := r.subcategory
    preconditions := r.preconditions
    steps := r.steps
    expected_result := r.expected_result
    tags := r.tags
    created_at := ts }

/-- The response counters of `import_testplan`. -/
structure ImportCounts where
  suites_created : Nat
  testcases_created : Nat
  duplicates_skipped : Nat
deriving DecidableEq

/-- The per-batch suite cache: `suite_cache: dict[str, Suite]`, kept as
(name, Suite object) pairs.  The cache is a plain Python dict, so it survives
a session rollback unchanged. -/
abbrev SuiteCache := List (PyStr × Suite)

/-- Suite resolution for one row of `import_testplan`: cache hit, else
`select` by name, else insert-and-flush a new suite.  In this single-session
model the insert follows a lookup miss inside the same transaction, so the
unique-name `IntegrityError` branch of the source (a cross-session race,
spec §5) cannot fire and is not reachable. -/
def resolveSuite (s : Sess) (cache : SuiteCache) (cnt : ImportCounts)
    (name : PyStr) : Sess × SuiteCache × ImportCounts × Suite :=
  match cache.find? (fun p => p.1 == name) with
  | some p => (s, cache, cnt, p.2)
  | none =>
    match findSuiteByName s name with
    | some su => (s, cache ++ [(name, su)], cnt, su)
    | none =>
      let su : Suite := ⟨s.nextSuiteId, name⟩
      let s' := { s with
        pendSuites := s.pendSuites ++ [su], nextSuiteId := s.nextSuiteId + 1 }
      (s', cache ++ [(name, su)],
       { cnt with suites_created := cnt.suites_created + 1 }, su)

/-- One iteration of the `for row in normalized` loop of `import_testplan`:
resolve the suite, then `db.add(tc); db.flush()`, catching the duplicate-key
`IntegrityError` with `db.rollback()` and the duplicate counter. -/
def importStep (acc : Sess × SuiteCache × ImportCounts) (row : NormalizedRow) :
    Sess × SuiteCache × ImportCounts :=
  let s := acc.1
  let cache := acc.2.1
  let cnt := acc.2.2
  let r1 := resolveSuite s cache cnt row.suite_name
  let s1 := r1.1
  let cache1 := r1.2.1
  let cnt1 := r1.2.2.1
  let suite := r1.2.2.2
  if caseConflict s1 suite.id row.case_id then
    (rollbackSess s1, cache1,
     { cnt1 with duplicates_skipped := cnt1.duplicates_skipped + 1 })
  else
    ({ s1 with
        pendCases := s1.pendCases ++ [mkTestCase suite.id row s1.nextCaseId s1.nextCaseId],
        nextCaseId := s1.nextCaseId + 1 },
     cache1,
     { cnt1 with testcases_created := cnt1.testcases_created + 1 })

/-- The whole `for row in normalized` loop. -/
def runRows : List NormalizedRow → Sess × SuiteCache × ImportCounts →
    Sess × SuiteCache × ImportCounts
  | [], acc => acc
  | row :: rest, acc => runRows rest (importStep acc row)

/-- The persistence phase of `import_testplan` (`routes_testplan.py`): run the
row loop on a fresh session over `st` and finish with `db.commit()`. -/
def persist_rows (rows : List NormalizedRow) (st : Store) : ImportCounts × Store :=
  let out := runRows rows (sessOf st, [], ⟨0, 0, 0⟩)
  (out.2.2, commitSess out.1)

/-- The import pipeline after parsing: normalize the raw records, persist the
normalized rows, return (counters, warnings, new store). -/
def import_records (records : List RawRecord) (st : Store) :
    ImportCounts × List PyStr × Store :=
  let nw := normalize_rows records
  let cs := persist_rows nw.1 st
  (cs.1, nw.2, cs.2)

/-- Insert `x` into a list ordered by `le` (insertion sort step). -/
def insertLe (le : α → α → Bool) (x : α) : List α → List α
  | [] => [x]
  | y :: ys => if le x y then x :: y :: ys else y :: insertLe le x ys

/-- Insertion sort by `le`. -/
def sortLe (le : α → α → Bool) (l : List α) : List α :=
  l.foldr (insertLe le) []

/-- `ORDER BY created_at DESC, id DESC`: `a` comes before `b`. -/
def tcBefore (a b : TestCase) : Bool :=
  b.created_at < a.created_at || (b.created_at == a.created_at && b.id ≤ a.id)

/-- Whether `pat` occurs as a contiguous substring of the second list. -/
def containsSub (pat : PyStr) : PyStr → Bool
  | [] => pat.isEmpty
  | c :: rest => pat.isPrefixOf (c :: rest) || containsSub pat rest

/-- Case-insensitive containment, the semantics of `col ILIKE '%q%'` for a
pattern without further wildcards; a `NULL` column never matches. -/
def ilikeContains (q : PyStr) (v : Option PyStr) : Bool :=
  match v with
  | none => false
  | some s => containsSub (pyLower q) (pyLower s)

/-- The WHERE clause of `list_suite_testcases`: suite match, then the optional
equality filters and the OR-of-three substring search.  A filter given as the
empty string is skipped (`if category:` — Python truthiness). -/
def tcMatches (suite_id : Nat) (category priority search : Option PyStr)
    (tc : TestCase) : Bool :=
  tc.suite_id == suite_id
  && (match category with
      | none => true
      | some c => if c.isEmpty then true else tc.category == some c)
  && (match priority with
      | none => true
      | some p => if p.isEmpty then true else tc.priority == some p)
  && (match search with
      | none => true
      | some q =>
        if q.isEmpty then true
        else ilikeContains q (some tc.title) || ilikeContains q tc.description
          || ilikeContains q tc.case_id)

/-- The page returned by `list_suite_testcases`. -/
structure PageResult where
  items : List TestCase
  total : Nat
  page : Nat
  page_size : Nat
deriving DecidableEq

/-- `list_suite_testcases` from `routes_testplan.py`: 404 for a missing suite,
otherwise the total match count ignoring pagination plus the requested page,
ordered by creation time descending then id descending.  `page ≥ 1` and
`1 ≤ page_size ≤ 200` are enforced by the route's query validation before the
handler runs. -/
def list_suite_testcases (st : Store) (suite_id : Nat) (page page_size : Nat)
    (category priority search : Option PyStr) : Except HErr PageResult :=
  match st.suites.find? (fun su => su.id == suite_id) with
  | none => .error ⟨404, lit ("Suite not found.")⟩
  | some _ =>
    let matched := st.test_cases.filter (tcMatches suite_id category priority search)
    let sorted := sortLe tcBefore matched
    .ok ⟨(sorted.drop ((page - 1) * page_size)).take page_size,
         matched.length, page, page_size⟩

deriving instance DecidableEq for Except

/-- A value produced by `_coerce_str` is never the empty string. -/
theorem coerce_some_ne_nil {x : Option PyStr} {t : PyStr}
    (h : _coerce_str x = some t) : t ≠ [] := by
  cases x with
  | none => simp [_coerce_str] at h
  | some s =>
    by_cases he : (pyStrip s).isEmpty
    · simp [_coerce_str, he] at h
    · simp [_coerce_str, he] at h
      subst h
      simpa [List.isEmpty_iff] using he

/-- The computed title is empty exactly when both the coerced `title` and the
coerced `name` fields are absent. -/
theorem rowTitle_eq_nil_iff (raw : RawRecord) :
    rowTitle raw = []
      ↔ _coerce_str (getVal raw (lit ("title"))) = none
        ∧ _coerce_str (getVal raw (lit ("name"))) = none := by
  unfold rowTitle
  cases h1 : _coerce_str (getVal raw (lit ("title"))) with
  | some t => simp [coerce_some_ne_nil h1]
  | none =>
    cases h2 : _coerce_str (getVal raw (lit ("name"))) with
    | some t => simp [coerce_some_ne_nil h2]
    | none => simp

/-- Functional description of `normalize_rows_go`: keep exactly the indexed
rows with a non-empty computed title, warn once per dropped row. -/
theorem normalize_rows_go_spec (raws : List RawRecord) : ∀ i,
    normalize_rows_go i raws
      = (((withIdx i raws).filter (fun p => !(rowTitle p.2 == []))).map (fun p => mkRow p.2),
         ((withIdx i raws).filter (fun p => rowTitle p.2 == [])).map (fun p => warnMsg p.1)) := by
  induction raws with
  | nil => intro i; rfl
  | cons raw rest ih =>
    intro i
    simp only [normalize_rows_go, withIdx, List.filter_cons, ih (i + 1)]
    by_cases h : rowTitle raw = []
    · simp [h]
    · simp [h]

/-- C2: header synonym resolution is deterministic and insensitive to case,
whitespace and punctuation — two headers with the same normalized key resolve
identically, resolution factors through `_norm_key` followed by the fixed
synonym table, and "Test Area", "testarea" and "TEST_AREA" all resolve to
`category`. -/
theorem header_synonym_resolution (s t : PyStr) (h : _norm_key s = _norm_key t) :
    resolve_header s = resolve_header t
    ∧ (∀ u : PyStr, resolve_header u = (synFind (_norm_key u)).getD (_norm_key u))
    ∧ resolve_header (lit ("Test Area")) = lit ("category")
    ∧ resolve_header (lit ("testarea")) = lit ("category")
    ∧ resolve_header (lit ("TEST_AREA")) = lit ("category") := by
  refine ⟨?_, fun u => rfl, by decide, by decide, by decide⟩
  unfold resolve_header
  rw [h]

/-- Witness for `header_synonym_resolution` at a concrete pair of headers. -/
theorem header_synonym_resolution_witness :
    resolve_header (lit (" TEST area ")) = resolve_header (lit ("TEST_AREA")) :=
  (header_synonym_resolution (lit (" TEST area ")) (lit ("TEST_AREA")) (by decide)).1

/-- C3 counterexample: the header "Extra Col" matches no synonym, yet the
resolver used by `normalize_rows` does not return it unchanged — it returns
the normalized form "extracol". -/
theorem unmapped_header_not_returned_unchanged :
    synFind (_norm_key (lit ("Extra Col"))) = none
    ∧ resolve_header (lit ("Extra Col")) = lit ("extracol")
    ∧ resolve_header (lit ("Extra Col")) ≠ lit ("Extra Col") := by
  refine ⟨by decide, by decide, by decide⟩

/-- C3 as amended: for a raw header whose normalized key is not in the synonym
table, the resolver is total and returns the normalized key (trimmed,
lowercased, non-alphanumerics removed) — not necessarily the original
string. -/
theorem unmapped_header_resolves_to_norm_key (k : PyStr)
    (h : synFind (_norm_key k) = none) : resolve_header k = _norm_key k := by
  unfold resolve_header
  rw [h]
  rfl

/-- Witness for `unmapped_header_resolves_to_norm_key`. -/
theorem unmapped_header_resolves_to_norm_key_witness :
    resolve_header (lit ("Extra Col")) = _norm_key (lit ("Extra Col")) :=
  unmapped_header_resolves_to_norm_key (lit ("Extra Col")) (by decide)

/-- C10: within one raw record, the header iterated last wins — appending an
item whose header resolves to `key` makes its value the one read back — and in
particular with both a "Title" and a "Name" column (each resolving to the
canonical `title`), the later column supplies the title. -/
theorem last_header_wins (raw : RawRecord) (k : PyStr) (v : Option PyStr) :
    dictGet (raw ++ [(some k, v)]) (resolve_header k) = some v
    ∧ (mkRow [(some (lit ("Title")), some (lit ("A"))),
              (some (lit ("Name")), some (lit ("B")))]).title = lit ("B")
    ∧ (mkRow [(some (lit ("Name")), some (lit ("B"))),
              (some (lit ("Title")), some (lit ("A")))]).title = lit ("A") := by
  refine ⟨?_, by decide, by decide⟩
  unfold dictGet
  rw [List.foldl_append]
  simp

/-- C1: `normalize_rows` keeps exactly the rows whose computed title is
non-empty (so every emitted row has a non-empty title), a dropped row is the
row whose coerced title and name fields are both absent or blank, and each
dropped row contributes exactly one warning naming its 1-based position. -/
theorem normalize_rows_title_invariant (raws : List RawRecord) :
    (normalize_rows raws).1
      = ((withIdx 1 raws).filter (fun p => !(rowTitle p.2 == []))).map (fun p => mkRow p.2)
    ∧ (normalize_rows raws).2
      = ((withIdx 1 raws).filter (fun p => rowTitle p.2 == [])).map (fun p => warnMsg p.1)
    ∧ (∀ r ∈ (normalize_rows raws).1, r.title ≠ [])
    ∧ (∀ raw : RawRecord,
        rowTitle raw = []
          ↔ _coerce_str (getVal raw (lit ("title"))) = none
            ∧ _coerce_str (getVal raw (lit ("name"))) = none) := by
  have hgo := normalize_rows_go_spec raws 1
  refine ⟨by rw [normalize_rows, hgo], by rw [normalize_rows, hgo], ?_, rowTitle_eq_nil_iff⟩
  intro r hr
  rw [normalize_rows, hgo] at hr
  simp only [List.mem_map, List.mem_filter] at hr
  obtain ⟨p, ⟨_, hp⟩, hr⟩ := hr
  subst hr
  simpa [mkRow] using hp

/-- Witness for `normalize_rows_title_invariant` on a two-row input: the row
with only a "name" value is kept, the row with neither title nor name is
dropped with the "Row 2" warning. -/
theorem normalize_rows_title_invariant_witness :
    (normalize_rows [[(some (lit ("name")), some (lit ("T")))],
                     [(some (lit ("foo")), some (lit ("x")))]]).1
      = [mkRow [(some (lit ("name")), some (lit ("T")))]]
    ∧ (normalize_rows [[(some (lit ("name")), some (lit ("T")))],
                       [(some (lit ("foo")), some (lit ("x")))]]).2 = [warnMsg 2] := by
  have h := normalize_rows_title_invariant
    [[(some (lit ("name")), some (lit ("T")))], [(some (lit ("foo")), some (lit ("x")))]]
  refine ⟨?_, ?_⟩
  · rw [h.1]; decide
  · rw [h.2.1]; decide

/-- `splitOnC` never returns the empty list. -/
theorem splitOnC_ne_nil (d : Char) (m : PyStr) : splitOnC d m ≠ [] := by
  induction m with
  | nil => simp [splitOnC]
  | cons c rest ih =>
    by_cases h : c = d
    · simp [splitOnC, h]
    · cases hs : splitOnC d rest with
      | nil => exact absurd hs ih
      | cons x xs => simp [splitOnC, h, hs]

/-- Splitting a list that starts with the separator yields a leading empty
piece. -/
theorem splitOnC_cons_delim (d : Char) (m : PyStr) :
    splitOnC d (d :: m) = [] :: splitOnC d m := by
  simp [splitOnC]

/-- Splitting a list that starts with a non-separator prepends that character
to the first piece. -/
theorem splitOnC_cons_ne {d c : Char} (h : c ≠ d) (m : PyStr) :
    ∃ h0 t, splitOnC d m = h0 :: t ∧ splitOnC d (c :: m) = (c :: h0) :: t := by
  cases hs : splitOnC d m with
  | nil => exact absurd hs (splitOnC_ne_nil d m)
  | cons x xs => exact ⟨x, xs, rfl, by simp [splitOnC, h, hs]⟩

/-- A leading whitespace character is absorbed by `pyStrip`. -/
theorem pyStrip_cons_sp {c : Char} (h : pyIsSpace c) (x : PyStr) :
    pyStrip (c :: x) = pyStrip x := by
  unfold pyStrip
  rw [List.dropWhile_cons_of_pos h]

/-- Appending one element to the input of `dropWhile`. -/
theorem dropWhile_append_single {p : Char → Bool} (x : PyStr) (c : Char) :
    (x ++ [c]).dropWhile p
      = if (x.dropWhile p).isEmpty then [c].dropWhile p else x.dropWhile p ++ [c] := by
  induction x with
  | nil => simp
  | cons a x' ih =>
    by_cases ha : p a
    · rw [List.cons_append, List.dropWhile_cons_of_pos ha, ih,
        List.dropWhile_cons_of_pos ha]
    · rw [List.cons_append, List.dropWhile_cons_of_neg ha,
        List.dropWhile_cons_of_neg ha]
      simp

/-- A trailing whitespace character is absorbed by `pyStrip`. -/
theorem pyStrip_snoc_sp {c : Char} (h : pyIsSpace c) (x : PyStr) :
    pyStrip (x ++ [c]) = pyStrip x := by
  unfold pyStrip
  rw [dropWhile_append_single]
  cases hd : x.dropWhile pyIsSpace with
  | nil => simp [List.dropWhile_cons_of_pos h]
  | cons y ys =>
    rw [if_neg (by simp)]
    simp [List.dropWhile_cons_of_pos, h]

/-- Every string is its stripped core surrounded by whitespace. -/
theorem pyStrip_decomp (s : PyStr) :
    ∃ pre suf, s = pre ++ pyStrip s ++ suf
      ∧ (∀ c ∈ pre, pyIsSpace c) ∧ (∀ c ∈ suf, pyIsSpace c) := by
  refine ⟨s.takeWhile pyIsSpace,
    ((s.dropWhile pyIsSpace).reverse.takeWhile pyIsSpace).reverse, ?_, ?_, ?_⟩
  · have h2 := congrArg List.reverse
      (List.takeWhile_append_dropWhile pyIsSpace (s.dropWhile pyIsSpace).reverse)
    simp only [List.reverse_append, List.reverse_reverse] at h2
    conv_lhs => rw [← List.takeWhile_append_dropWhile pyIsSpace s, ← h2]
    rw [List.append_assoc]
    rfl
  · intro c hc
    exact List.mem_takeWhile_imp hc
  · intro c hc
    rw [List.mem_reverse] at hc
    exact List.mem_takeWhile_imp hc

/-- An all-whitespace string strips to nothing. -/
theorem pyStrip_eq_nil_of_all {s : PyStr} (h : ∀ c ∈ s, pyIsSpace c) :
    pyStrip s = [] := by
  unfold pyStrip
  rw [List.dropWhile_eq_nil_iff.mpr h]
  rfl

/-- Conversely, a string that strips to nothing is all whitespace. -/
theorem all_sp_of_pyStrip_eq_nil {s : PyStr} (h : pyStrip s = []) :
    ∀ c ∈ s, pyIsSpace c := by
  obtain ⟨pre, suf, hd, hpre, hsuf⟩ := pyStrip_decomp s
  rw [h, List.append_nil] at hd
  intro c hc
  rw [hd] at hc
  rcases List.mem_append.mp hc with h1 | h1
  · exact hpre c h1
  · exact hsuf c h1

/-- Splitting an empty string and keeping non-empty pieces yields nothing. -/
theorem nlp_nil (d : Char) : nlp d [] = [] := rfl

/-- A leading separator contributes only an empty piece, which is dropped. -/
theorem nlp_cons_delim (d : Char) (m : PyStr) : nlp d (d :: m) = nlp d m := by
  unfold nlp
  rw [splitOnC_cons_delim, List.map_cons, List.filter_cons]
  simp [pyStrip]

/-- A leading whitespace non-separator is trimmed off the first piece. -/
theorem nlp_cons_sp {d c : Char} (hsp : pyIsSpace c) (hne : c ≠ d) (m : PyStr) :
    nlp d (c :: m) = nlp d m := by
  obtain ⟨h0, t, hs, hs'⟩ := splitOnC_cons_ne hne m
  unfold nlp
  rw [hs, hs', List.map_cons, List.map_cons, List.filter_cons, List.filter_cons,
    pyStrip_cons_sp hsp]

/-- Appending a non-separator extends the last piece of a split. -/
theorem splitOnC_snoc_ne {d c : Char} (h : c ≠ d) (m : PyStr) :
    ∃ I L, splitOnC d m = I ++ [L] ∧ splitOnC d (m ++ [c]) = I ++ [L ++ [c]] := by
  induction m with
  | nil => exact ⟨[], [], rfl, by simp [splitOnC, h]⟩
  | cons a m' ih =>
    obtain ⟨I, L, h1, h2⟩ := ih
    by_cases ha : a = d
    · subst ha
      refine ⟨[] :: I, L, ?_, ?_⟩
      · rw [splitOnC_cons_delim, h1]
        rfl
      · rw [List.cons_append, splitOnC_cons_delim, h2]
        rfl
    · obtain ⟨h0, t, hs, hs'⟩ := splitOnC_cons_ne ha m'
      obtain ⟨g0, u, gs, gs'⟩ := splitOnC_cons_ne ha (m' ++ [c])
      rw [h1] at hs
      rw [h2] at gs
      cases I with
      | nil =>
        simp only [List.nil_append] at hs gs
        injection hs with e1 e2
        injection gs with e3 e4
        refine ⟨[], a :: L, ?_, ?_⟩
        · rw [hs', ← e1, ← e2]
          rfl
        · rw [List.cons_append, gs', ← e3, ← e4]
          rfl
      | cons I0 I' =>
        rw [List.cons_append] at hs gs
        injection hs with e1 e2
        injection gs with e3 e4
        refine ⟨(a :: I0) :: I', L, ?_, ?_⟩
        · rw [hs', ← e1, ← e2]
          rfl
        · rw [List.cons_append, gs', ← e3, ← e4]
          rfl

/-- Appending a separator adds a final empty piece to a split. -/
theorem splitOnC_snoc_delim (d : Char) (m : PyStr) :
    ∃ I L, splitOnC d m = I ++ [L] ∧ splitOnC d (m ++ [d]) = (I ++ [L]) ++ [[]] := by
  induction m with
  | nil => exact ⟨[], [], rfl, by simp [splitOnC]⟩
  | cons a m' ih =>
    obtain ⟨I, L, h1, h2⟩ := ih
    by_cases ha : a = d
    · subst ha
      refine ⟨[] :: I, L, ?_, ?_⟩
      · rw [splitOnC_cons_delim, h1]
        rfl
      · rw [List.cons_append, splitOnC_cons_delim, h2]
        rfl
    · obtain ⟨h0, t, hs, hs'⟩ := splitOnC_cons_ne ha m'
      obtain ⟨g0, u, gs, gs'⟩ := splitOnC_cons_ne ha (m' ++ [d])
      rw [h1] at hs
      rw [h2] at gs
      cases I with
      | nil =>
        simp only [List.nil_append] at hs
        simp only [List.nil_append, List.cons_append] at gs
        injection hs with e1 e2
        injection gs with e3 e4
        refine ⟨[], a :: L, ?_, ?_⟩
        · rw [hs', ← e1, ← e2]
          rfl
        · rw [List.cons_append, gs', ← e3, ← e4]
          rfl
      | cons I0 I' =>
        rw [List.cons_append] at hs
        rw [List.append_assoc, List.cons_append] at gs
        injection hs with e1 e2
        injection gs with e3 e4
        refine ⟨(a :: I0) :: I', L, ?_, ?_⟩
        · rw [hs', ← e1, ← e2]
          rfl
        · rw [List.cons_append, gs', ← e3, ← e4]
          simp

/-- A trailing whitespace non-separator is trimmed off the last piece. -/
theorem nlp_snoc_sp {d c : Char} (hsp : pyIsSpace c) (hne : c ≠ d) (m : PyStr) :
    nlp d (m ++ [c]) = nlp d m := by
  obtain ⟨I, L, h1, h2⟩ := splitOnC_snoc_ne hne m
  unfold nlp
  rw [h1, h2, List.map_append, List.map_append, List.filter_append,
    List.filter_append, List.map_singleton, List.map_singleton,
    pyStrip_snoc_sp hsp]

/-- A trailing separator only adds an empty piece, which is dropped. -/
theorem nlp_snoc_delim (d : Char) (m : PyStr) : nlp d (m ++ [d]) = nlp d m := by
  obtain ⟨I, L, h1, h2⟩ := splitOnC_snoc_delim d m
  unfold nlp
  rw [h1, h2, List.map_append, List.filter_append]
  simp [pyStrip]

/-- An all-whitespace string contributes no pieces. -/
theorem nlp_all_sp {d : Char} {m : PyStr} (h : ∀ c ∈ m, pyIsSpace c) :
    nlp d m = [] := by
  induction m with
  | nil => rfl
  | cons c m' ih =>
    have hc := h c (by simp)
    have ih' := ih (fun x hx => h x (by simp [hx]))
    by_cases hcd : c = d
    · subst hcd
      rw [nlp_cons_delim]
      exact ih'
    · rw [nlp_cons_sp hc hcd]
      exact ih'

/-- Leading whitespace never changes the kept pieces. -/
theorem nlp_append_sp_left {d : Char} {pre : PyStr} (h : ∀ c ∈ pre, pyIsSpace c)
    (m : PyStr) : nlp d (pre ++ m) = nlp d m := by
  induction pre with
  | nil => rfl
  | cons c pre' ih =>
    have hc := h c (by simp)
    have ih' := ih (fun x hx => h x (by simp [hx]))
    rw [List.cons_append]
    by_cases hcd : c = d
    · subst hcd
      rw [nlp_cons_delim]
      exact ih'
    · rw [nlp_cons_sp hc hcd]
      exact ih'

/-- Trailing whitespace never changes the kept pieces. -/
theorem nlp_append_sp_right {d : Char} {suf : PyStr} (h : ∀ c ∈ suf, pyIsSpace c)
    (m : PyStr) : nlp d (m ++ suf) = nlp d m := by
  induction suf generalizing m with
  | nil => rw [List.append_nil]
  | cons c suf' ih =>
    have hc := h c (by simp)
    have ih' := ih (fun x hx => h x (by simp [hx]))
    have hsplit : m ++ (c :: suf') = (m ++ [c]) ++ suf' := by simp
    rw [hsplit, ih' (m ++ [c])]
    by_cases hcd : c = d
    · subst hcd
      exact nlp_snoc_delim _ m
    · exact nlp_snoc_sp hc hcd m

/-- Stripping the whole string first never changes the kept pieces. -/
theorem nlp_pyStrip (d : Char) (m : PyStr) : nlp d (pyStrip m) = nlp d m := by
  obtain ⟨pre, suf, hd, hpre, hsuf⟩ := pyStrip_decomp m
  conv_rhs => rw [hd]
  rw [nlp_append_sp_right hsuf, nlp_append_sp_left hpre]

/-- One-step unfolding of `normNl` on a cons cell. -/
theorem normNl_cons (c : Char) (r : PyStr) :
    normNl (c :: r)
      = if c = '\r' then
          (match r with
           | c2 :: rest2 =>
             if c2 = '\n' then '\n' :: normNl rest2 else '\n' :: normNl (c2 :: rest2)
           | [] => ['\n'])
        else c :: normNl r := by
  rw [normNl.eq_def]
  rfl

/-- Unfolding `normNl` on a non-CR head. -/
theorem normNl_cons_ne {c : Char} (h : c ≠ '\r') (r : PyStr) :
    normNl (c :: r) = c :: normNl r := by
  rw [normNl_cons, if_neg h]

/-- Unfolding `normNl` on a final CR. -/
theorem normNl_cr_nil : normNl ['\r'] = ['\n'] := rfl

/-- Unfolding `normNl` on a CRLF pair. -/
theorem normNl_crlf (r : PyStr) : normNl ('\r' :: '\n' :: r) = '\n' :: normNl r := rfl

/-- Unfolding `normNl` on a lone CR. -/
theorem normNl_cr_cons {c : Char} (h : c ≠ '\n') (r : PyStr) :
    normNl ('\r' :: c :: r) = '\n' :: normNl (c :: r) := by
  rw [normNl_cons, if_pos rfl]
  show (if c = '\n' then '\n' :: normNl r else '\n' :: normNl (c :: r))
    = '\n' :: normNl (c :: r)
  rw [if_neg h]

/-- Appending a non-LF character commutes with newline normalization. -/
theorem normNl_snoc_ne {c : Char} (h : c ≠ '\n') (l : PyStr) :
    normNl (l ++ [c]) = normNl l ++ [if c = '\r' then '\n' else c] := by
  induction l with
  | nil =>
    by_cases hc : c = '\r'
    · subst hc
      simp [normNl]
    · simp [normNl, hc]
  | cons a l' ih =>
    by_cases ha : a = '\r'
    · subst ha
      cases l' with
      | nil =>
        rw [List.cons_append, List.nil_append, normNl_cr_cons h, normNl_cr_nil]
        by_cases hc : c = '\r'
        · subst hc
          simp [normNl]
        · simp [normNl, hc]
      | cons b r =>
        by_cases hb : b = '\n'
        · subst hb
          have h1 := ih
          rw [List.cons_append, normNl_cons_ne (by decide), normNl_cons_ne (by decide),
            List.cons_append] at h1
          injection h1 with e1 e2
          rw [List.cons_append, List.cons_append, normNl_crlf, e2, normNl_crlf]
          simp
        · rw [List.cons_append, List.cons_append, normNl_cr_cons hb, normNl_cr_cons hb,
            ← List.cons_append, ih]
          simp
    · rw [List.cons_append, normNl_cons_ne ha, normNl_cons_ne ha, ih]
      simp

/-- Appending an LF either survives normalization or is merged into a
preceding CR. -/
theorem normNl_snoc_nl (l : PyStr) :
    normNl (l ++ ['\n']) = normNl l ++ ['\n'] ∨ normNl (l ++ ['\n']) = normNl l := by
  induction l with
  | nil =>
    left
    simp [normNl]
  | cons a l' ih =>
    by_cases ha : a = '\r'
    · subst ha
      cases l' with
      | nil =>
        right
        rw [List.cons_append, List.nil_append, normNl_crlf, normNl_cr_nil]
        rfl
      | cons b r =>
        by_cases hb : b = '\n'
        · subst hb
          have h1 := ih
          rw [List.cons_append, normNl_cons_ne (by decide), normNl_cons_ne (by decide)] at h1
          rcases h1 with h1 | h1
          · rw [List.cons_append] at h1
            injection h1 with e1 e2
            left
            rw [List.cons_append, List.cons_append, normNl_crlf, e2, normNl_crlf]
            simp
          · injection h1 with e1 e2
            right
            rw [List.cons_append, List.cons_append, normNl_crlf, e2, normNl_crlf]
        · rw [List.cons_append, List.cons_append, normNl_cr_cons hb, normNl_cr_cons hb,
            ← List.cons_append]
          rcases ih with h1 | h1
          · left
            rw [h1]
            simp
          · right
            rw [h1]
    · rw [List.cons_append, normNl_cons_ne ha, normNl_cons_ne ha]
      rcases ih with h1 | h1
      · left
        rw [h1]
        simp
      · right
        rw [h1]

/-- Newline normalization of an all-whitespace string is all whitespace. -/
theorem normNl_all_sp {l : PyStr} (h : ∀ c ∈ l, pyIsSpace c) :
    ∀ c ∈ normNl l, pyIsSpace c := by
  induction l with
  | nil =>
    intro c hc
    rw [show normNl [] = [] from rfl] at hc
    simp at hc
  | cons a l' ih =>
    have ha' := h a (by simp)
    have ih' := ih (fun x hx => h x (by simp [hx]))
    by_cases ha : a = '\r'
    · subst ha
      cases l' with
      | nil =>
        rw [normNl_cr_nil]
        intro c hc
        simp only [List.mem_singleton] at hc
        subst hc
        decide
      | cons b r =>
        by_cases hb : b = '\n'
        · subst hb
          rw [normNl_crlf]
          intro c hc
          rcases List.mem_cons.mp hc with h1 | h1
          · subst h1
            decide
          · refine ih' c ?_
            rw [normNl_cons_ne (by decide)]
            exact List.mem_cons_of_mem _ h1
        · rw [normNl_cr_cons hb]
          intro c hc
          rcases List.mem_cons.mp hc with h1 | h1
          · subst h1
            decide
          · exact ih' c h1
    · rw [normNl_cons_ne ha]
      intro c hc
      rcases List.mem_cons.mp hc with h1 | h1
      · subst h1
        exact ha'
      · exact ih' c h1

/-- The kept, trimmed lines of a steps value: newline-normalize, split on LF,
trim, drop empties. -/
def lineParts (v : PyStr) : List PyStr := nlp '\n' (normNl v)

/-- A leading whitespace character never changes the kept lines. -/
theorem lineParts_cons_sp {c : Char} (hsp : pyIsSpace c) (l : PyStr) :
    lineParts (c :: l) = lineParts l := by
  have hc := hsp
  simp only [pyIsSpace, Bool.or_eq_true, beq_iff_eq] at hc
  unfold lineParts
  rcases hc with ((((h | h) | h) | h) | h) | h
  · subst h
    rw [normNl_cons_ne (by decide), nlp_cons_sp (by decide) (by decide)]
  · subst h
    rw [normNl_cons_ne (by decide), nlp_cons_sp (by decide) (by decide)]
  · subst h
    rw [normNl_cons_ne (by decide), nlp_cons_delim]
  · subst h
    cases l with
    | nil =>
      rw [normNl_cr_nil, nlp_cons_delim]
      rfl
    | cons b r =>
      by_cases hb : b = '\n'
      · subst hb
        rw [normNl_crlf, nlp_cons_delim, normNl_cons_ne (by decide), nlp_cons_delim]
      · rw [normNl_cr_cons hb, nlp_cons_delim]
  · subst h
    rw [normNl_cons_ne (by decide), nlp_cons_sp (by decide) (by decide)]
  · subst h
    rw [normNl_cons_ne (by decide), nlp_cons_sp (by decide) (by decide)]

/-- A trailing whitespace character never changes the kept lines. -/
theorem lineParts_snoc_sp {c : Char} (hsp : pyIsSpace c) (l : PyStr) :
    lineParts (l ++ [c]) = lineParts l := by
  unfold lineParts
  by_cases hc : c = '\n'
  · subst hc
    rcases normNl_snoc_nl l with h1 | h1
    · rw [h1, nlp_snoc_delim]
    · rw [h1]
  · rw [normNl_snoc_ne hc]
    by_cases hr : c = '\r'
    · rw [if_pos hr, nlp_snoc_delim]
    · rw [if_neg hr]
      have hcsp : pyIsSpace c := hsp
      exact nlp_snoc_sp hcsp hc (normNl l)

/-- Leading whitespace never changes the kept lines. -/
theorem lineParts_append_sp_left {pre : PyStr} (h : ∀ c ∈ pre, pyIsSpace c)
    (m : PyStr) : lineParts (pre ++ m) = lineParts m := by
  induction pre with
  | nil => rfl
  | cons c pre' ih =>
    rw [List.cons_append, lineParts_cons_sp (h c (by simp))]
    exact ih (fun x hx => h x (by simp [hx]))

/-- Trailing whitespace never changes the kept lines. -/
theorem lineParts_append_sp_right {suf : PyStr} (h : ∀ c ∈ suf, pyIsSpace c)
    (m : PyStr) : lineParts (m ++ suf) = lineParts m := by
  induction suf generalizing m with
  | nil => rw [List.append_nil]
  | cons c suf' ih =>
    have hsplit : m ++ (c :: suf') = (m ++ [c]) ++ suf' := by simp
    rw [hsplit, ih (fun x hx => h x (by simp [hx])) (m ++ [c]),
      lineParts_snoc_sp (h c (by simp))]

/-- Stripping the whole steps value first never changes the kept lines. -/
theorem lineParts_pyStrip (m : PyStr) : lineParts (pyStrip m) = lineParts m := by
  obtain ⟨pre, suf, hd, hpre, hsuf⟩ := pyStrip_decomp m
  conv_rhs => rw [hd]
  rw [lineParts_append_sp_right hsuf, lineParts_append_sp_left hpre]

/-- C4: `_split_multiline_steps` agrees with the specification's description
for every present value — normalize CRLF/CR to LF, split on LF, trim lines,
drop empty lines, empty result becomes absent — and on the spec's example. -/
theorem split_steps_matches_spec (v : PyStr) :
    _split_multiline_steps (some v) = stepsSpec v
    ∧ _split_multiline_steps (some (lit ("1. Connect\r\n2. Verify\r\n\r\n")))
        = some [lit ("1. Connect"), lit ("2. Verify")] := by
  refine ⟨?_, by decide⟩
  show (let w := pyStrip v
        if w.isEmpty then none
        else
          let parts := nlp '\n' (normNl w)
          if parts.isEmpty then none else some parts)
      = stepsSpec v
  by_cases he : (pyStrip v).isEmpty
  · have hall := all_sp_of_pyStrip_eq_nil (List.isEmpty_iff.mp he)
    have hnil : nlp '\n' (normNl v) = [] := nlp_all_sp (normNl_all_sp hall)
    rw [if_pos he]
    show none
      = (if (nlp '\n' (normNl v)).isEmpty = true then none else some (nlp '\n' (normNl v)))
    rw [hnil]
    rfl
  · have heq : nlp '\n' (normNl (pyStrip v)) = nlp '\n' (normNl v) := lineParts_pyStrip v
    rw [if_neg he]
    show (if (nlp '\n' (normNl (pyStrip v))).isEmpty = true then none
          else some (nlp '\n' (normNl (pyStrip v))))
      = (if (nlp '\n' (normNl v)).isEmpty = true then none else some (nlp '\n' (normNl v)))
    rw [heq]

/-- Replacing semicolons by commas commutes with whitespace stripping. -/
theorem semiRepl_pyStrip (v : PyStr) : semiRepl (pyStrip v) = pyStrip (semiRepl v) := by
  have hcomp : ∀ c : Char, pyIsSpace (if c = ';' then ',' else c) = pyIsSpace c := by
    intro c
    by_cases hc : c = ';'
    · subst hc
      rfl
    · rw [if_neg hc]
  have hpf : (pyIsSpace ∘ fun c => if c = ';' then ',' else c) = pyIsSpace := by
    funext c
    simp only [Function.comp_apply]
    exact hcomp c
  unfold pyStrip semiRepl
  rw [List.dropWhile_map, hpf, ← List.map_reverse, List.dropWhile_map, hpf,
    ← List.map_reverse]

/-- C5: `_split_tags` agrees with the specification's description for every
present value — split on comma or semicolon, trim pieces, drop empties, empty
result becomes absent — and on the spec's example. -/
theorem split_tags_matches_spec (v : PyStr) :
    _split_tags (some v) = tagsSpec v
    ∧ _split_tags (some (lit ("wifi; mesh, 5ghz")))
        = some [lit ("wifi"), lit ("mesh"), lit ("5ghz")] := by
  refine ⟨?_, by decide⟩
  show (let w := pyStrip v
        if w.isEmpty then none
        else
          let raw := nlp ',' (semiRepl w)
          if raw.isEmpty then none else some raw)
      = tagsSpec v
  by_cases he : (pyStrip v).isEmpty
  · have hall := all_sp_of_pyStrip_eq_nil (List.isEmpty_iff.mp he)
    have hall' : ∀ c ∈ semiRepl v, pyIsSpace c := by
      intro c hc
      simp only [semiRepl, List.mem_map] at hc
      obtain ⟨a, ha, hac⟩ := hc
      have := hall a ha
      by_cases h2 : a = ';'
      · subst h2
        simp [pyIsSpace] at this
      · rw [if_neg h2] at hac
        rw [← hac]
        exact this
    have hnil : nlp ',' (semiRepl v) = [] := nlp_all_sp hall'
    rw [if_pos he]
    show none
      = (if (nlp ',' (semiRepl v)).isEmpty = true then none else some (nlp ',' (semiRepl v)))
    rw [hnil]
    rfl
  · have heq : nlp ',' (semiRepl (pyStrip v)) = nlp ',' (semiRepl v) := by
      rw [semiRepl_pyStrip, nlp_pyStrip]
    rw [if_neg he]
    show (if (nlp ',' (semiRepl (pyStrip v))).isEmpty = true then none
          else some (nlp ',' (semiRepl (pyStrip v))))
      = (if (nlp ',' (semiRepl v)).isEmpty = true then none else some (nlp ',' (semiRepl v)))
    rw [heq]

/-- `csvLoop` returns every record when the remaining count fits the limit. -/
theorem csvLoop_ok (max_rows : Nat) :
    ∀ (records : List RawRecord) (i : Nat), i + records.length ≤ max_rows + 1 →
      csvLoop max_rows i records = .ok records := by
  intro records
  induction records with
  | nil => intro i _; rfl
  | cons r rest ih =>
    intro i hle
    simp only [List.length_cons] at hle
    have hi : ¬ max_rows < i := by omega
    rw [csvLoop, if_neg hi, ih (i + 1) (by omega)]
    rfl

/-- `csvLoop` fails with 413 as soon as the remaining count exceeds the
limit. -/
theorem csvLoop_err (max_rows : Nat) :
    ∀ (records : List RawRecord) (i : Nat), i ≤ max_rows + 1 →
      max_rows + 1 < i + records.length →
      csvLoop max_rows i records = .error ⟨413, csvTooLargeMsg max_rows⟩ := by
  intro records
  induction records with
  | nil =>
    intro i h1 h2
    simp only [List.length_nil] at h2
    omega
  | cons r rest ih =>
    intro i h1 h2
    by_cases hi : max_rows < i
    · rw [csvLoop, if_pos hi]
    · rw [csvLoop, if_neg hi,
        ih (i + 1) (by omega) (by simp only [List.length_cons] at h2; omega)]
      rfl

/-- `xlsxLoop` keeps exactly the non-blank records, in order, when the
data-row count fits the limit. -/
theorem xlsxLoop_ok (headers : List PyStr) (max_rows : Nat) :
    ∀ (data : List (List (Option PyStr))) (i : Nat), i + data.length ≤ max_rows + 1 →
      xlsxLoop headers max_rows i data
        = .ok (((data.map (fun row => mkRecGo row 0 headers [])).filter
            (fun r0 => !isBlankRec r0)).map
              (fun r0 => r0.map (fun p => (some p.1, p.2)))) := by
  intro data
  induction data with
  | nil => intro i _; rfl
  | cons row rest ih =>
    intro i hle
    simp only [List.length_cons] at hle
    have hi : ¬ max_rows < i := by omega
    rw [xlsxLoop, if_neg hi]
    simp only [List.map_cons, List.filter_cons]
    by_cases hb : isBlankRec (mkRecGo row 0 headers [])
    · rw [ih (i + 1) (by omega)]
      simp [hb]
    · rw [ih (i + 1) (by omega)]
      simp only [hb, Bool.not_false, if_pos, List.map_cons]
      rfl

/-- `xlsxLoop` fails with 413 as soon as the data-row count exceeds the
limit (blank rows included: the index advances on every input row). -/
theorem xlsxLoop_err (headers : List PyStr) (max_rows : Nat) :
    ∀ (data : List (List (Option PyStr))) (i : Nat), i ≤ max_rows + 1 →
      max_rows + 1 < i + data.length →
      xlsxLoop headers max_rows i data = .error ⟨413, xlsxTooLargeMsg max_rows⟩ := by
  intro data
  induction data with
  | nil =>
    intro i h1 h2
    simp only [List.length_nil] at h2
    omega
  | cons row rest ih =>
    intro i h1 h2
    by_cases hi : max_rows < i
    · rw [xlsxLoop, if_pos hi]
    · rw [xlsxLoop, if_neg hi]
      have hrec := ih (i + 1) (by omega) (by simp only [List.length_cons] at h2; omega)
      by_cases hb : isBlankRec (mkRecGo row 0 headers [])
      · simp only [hb, if_pos]
        exact hrec
      · simp only [hb, if_neg, Bool.false_eq_true, not_false_eq_true]
        rw [hrec]
        rfl

/-- One-step unfolding of `parse_xlsx` on a non-empty sheet. -/
theorem parse_xlsx_cons (headers_row : List (Option PyStr))
    (data : List (List (Option PyStr))) (max_rows : Nat) :
    parse_xlsx (headers_row :: data) max_rows
      = if (headers_row.map headerCell).all (fun h => h.isEmpty) then
          .error ⟨400, lit ("XLSX header row is empty.")⟩
        else xlsxLoop (headers_row.map headerCell) max_rows 1 data := rfl

/-- One-step unfolding of `parse_csv` with fieldnames present. -/
theorem parse_csv_some (fns : List PyStr) (records : List RawRecord) (max_rows : Nat) :
    parse_csv (some fns) records max_rows
      = if fns.isEmpty then .error ⟨400, lit ("CSV must include a header row.")⟩
        else csvLoop max_rows 1 records := rfl

/-- C8: with the default maximum of 50,000 data rows, both parsers return the
full ordered record sequence when the data-row count fits (for XLSX, the
records of the non-blank rows, blank rows being skipped by the source), and
fail with the 413 size-limit error, returning no records, when it does not. -/
theorem parsers_row_limit (fns : List PyStr) (records : List RawRecord)
    (headers_row : List (Option PyStr)) (data : List (List (Option PyStr)))
    (hfns : ¬ fns.isEmpty)
    (hhdr : ¬ ((headers_row.map headerCell).all (fun h => h.isEmpty))) :
    (records.length ≤ 50000 → parse_csv (some fns) records 50000 = .ok records)
    ∧ (50000 < records.length →
        parse_csv (some fns) records 50000 = .error ⟨413, csvTooLargeMsg 50000⟩)
    ∧ (data.length ≤ 50000 →
        parse_xlsx (headers_row :: data) 50000
          = .ok (((data.map (fun row =>
              mkRecGo row 0 (headers_row.map headerCell) [])).filter
                  (fun r0 => !isBlankRec r0)).map
                    (fun r0 => r0.map (fun p => (some p.1, p.2)))))
    ∧ (50000 < data.length →
        parse_xlsx (headers_row :: data) 50000
          = .error ⟨413, xlsxTooLargeMsg 50000⟩) := by
  refine ⟨?_, ?_, ?_, ?_⟩
  · intro hlen
    rw [parse_csv_some, if_neg hfns]
    exact csvLoop_ok 50000 records 1 (by omega)
  · intro hlen
    rw [parse_csv_some, if_neg hfns]
    exact csvLoop_err 50000 records 1 (by omega) (by omega)
  · intro hlen
    rw [parse_xlsx_cons, if_neg hhdr]
    exact xlsxLoop_ok _ 50000 data 1 (by omega)
  · intro hlen
    rw [parse_xlsx_cons, if_neg hhdr]
    exact xlsxLoop_err _ 50000 data 1 (by omega) (by omega)

/-- A CSV record list one past the row limit. -/
def bigRecs : List RawRecord := List.replicate 50001 []

/-- An XLSX data-row list one past the row limit. -/
def bigData : List (List (Option PyStr)) := List.replicate 50001 []

/-- Witness for `parsers_row_limit` at concrete inputs on both sides of the
limit. -/
theorem parsers_row_limit_witness :
    parse_csv (some [lit ("h")]) [[(some (lit ("h")), some (lit ("v")))]] 50000
      = .ok [[(some (lit ("h")), some (lit ("v")))]]
    ∧ parse_csv (some [lit ("h")]) bigRecs 50000 = .error ⟨413, csvTooLargeMsg 50000⟩
    ∧ parse_xlsx [[some (lit ("h"))], [some (lit ("v"))]] 50000
        = .ok [[(some (lit ("h")), some (lit ("v")))]]
    ∧ parse_xlsx ([some (lit ("h"))] :: bigData) 50000
        = .error ⟨413, xlsxTooLargeMsg 50000⟩ := by
  have hbig := parsers_row_limit [lit ("h")] bigRecs [some (lit ("h"))] bigData
    (by decide) (by decide)
  have hsmall := parsers_row_limit [lit ("h")] [[(some (lit ("h")), some (lit ("v")))]]
    [some (lit ("h"))] [[some (lit ("v"))]] (by decide) (by decide)
  refine ⟨hsmall.1 (by decide), hbig.2.1 ?_, ?_, hbig.2.2.2 ?_⟩
  · show 50000 < (List.replicate 50001 ([] : RawRecord)).length
    rw [List.length_replicate]
    omega
  · rw [hsmall.2.2.1 (by decide)]
    decide
  · show 50000 < (List.replicate 50001 ([] : List (Option PyStr))).length
    rw [List.length_replicate]
    omega

/-- Inserting one element grows the length by one. -/
theorem length_insertLe (le : α → α → Bool) (x : α) (l : List α) :
    (insertLe le x l).length = l.length + 1 := by
  induction l with
  | nil => rfl
  | cons y ys ih =>
    by_cases h : le x y
    · simp [insertLe, h]
    · simp [insertLe, h, ih]

/-- Insertion sort preserves length. -/
theorem length_sortLe (le : α → α → Bool) (l : List α) :
    (sortLe le l).length = l.length := by
  induction l with
  | nil => rfl
  | cons y ys ih =>
    show (insertLe le y (sortLe le ys)).length = ys.length + 1
    rw [length_insertLe, ih]

/-- C9: the per-suite listing is 404 for a missing suite id; for an existing
suite it returns the total count of matching rows ignoring pagination and the
1-based requested page of at most `page_size` items — concretely
`min page_size (total - (page-1)*page_size)` items.  `page ≥ 1` and
`1 ≤ page_size ≤ 200` are the route's query-validation bounds. -/
theorem list_suite_testcases_spec (st : Store) (suite_id page page_size : Nat)
    (category priority search : Option PyStr)
    (hp : 1 ≤ page) (hs1 : 1 ≤ page_size) (hs2 : page_size ≤ 200) :
    (st.suites.find? (fun su => su.id == suite_id) = none →
      list_suite_testcases st suite_id page page_size category priority search
        = .error ⟨404, lit ("Suite not found.")⟩)
    ∧ (∀ su, st.suites.find? (fun su => su.id == suite_id) = some su →
        ∃ pr, list_suite_testcases st suite_id page page_size category priority search
            = .ok pr
          ∧ pr.total
              = (st.test_cases.filter (tcMatches suite_id category priority search)).length
          ∧ pr.items.length = min page_size (pr.total - (page - 1) * page_size)
          ∧ pr.page = page ∧ pr.page_size = page_size) := by
  constructor
  · intro hnone
    unfold list_suite_testcases
    rw [hnone]
  · intro su hsu
    unfold list_suite_testcases
    rw [hsu]
    refine ⟨_, rfl, rfl, ?_, rfl, rfl⟩
    rw [List.length_take, List.length_drop, length_sortLe]

/-- A minimal test case in suite 1, used by witnesses. -/
def tc0 (i : Nat) : TestCase :=
  ⟨i, 1, none, lit ("t"), none, none, none, none, none, none, none, none, 0⟩

/-- A store with one suite and 25 matching test cases. -/
def store25 : Store :=
  ⟨[⟨1, lit ("S")⟩], (List.range 25).map tc0, 2, 26⟩

/-- Witness for `list_suite_testcases_spec`: a missing suite is 404, and page
2 of size 20 over 25 matching rows has 5 items and total 25. -/
theorem list_suite_testcases_spec_witness :
    list_suite_testcases store25 7 1 20 none none none
      = .error ⟨404, lit ("Suite not found.")⟩
    ∧ ∃ pr, list_suite_testcases store25 1 2 20 none none none = .ok pr
        ∧ pr.total = 25 ∧ pr.items.length = 5 := by
  have h1 := (list_suite_testcases_spec store25 7 1 20 none none none
    (by decide) (by decide) (by decide)).1
  have h2 := (list_suite_testcases_spec store25 1 2 20 none none none
    (by decide) (by decide) (by decide)).2
  refine ⟨h1 (by decide), ?_⟩
  obtain ⟨pr, heq, htot, hlen, _, _⟩ := h2 ⟨1, lit ("S")⟩ (by decide)
  refine ⟨pr, heq, ?_, ?_⟩
  · rw [htot]
    decide
  · rw [hlen, htot]
    decide

/-- A normalized row in suite "S" with case id "c1". -/
def rowA : NormalizedRow :=
  ⟨lit ("S"), some (lit ("c1")), lit ("T1"), none, none, none, none, none, none,
   none, none⟩

/-- A second row with the same (suite, case id) key as `rowA`. -/
def rowB : NormalizedRow :=
  ⟨lit ("S"), some (lit ("c1")), lit ("T2"), none, none, none, none, none, none,
   none, none⟩

/-- C6 evidence: importing `[rowA, rowB]` into an empty store flushes `rowA`
(and the new suite), then the duplicate `rowB` triggers `db.rollback()`, which
rolls back the whole transaction — the final commit persists nothing, even
though the response reports `suites_created = 1`, `testcases_created = 1`,
`duplicates_skipped = 1`.  The row placed before the duplicate is lost, so a
duplicate does abort the batch's earlier work, contradicting the claim. -/
theorem duplicate_rolls_back_prior_rows :
    (persist_rows [rowA, rowB] emptyStore).1 = ⟨1, 1, 1⟩
    ∧ (persist_rows [rowA, rowB] emptyStore).2.test_cases = []
    ∧ (persist_rows [rowA, rowB] emptyStore).2.suites = [] := by
  refine ⟨by decide, by decide, by decide⟩

/-- A raw CSV record with a title but no case id column. -/
def recT : RawRecord := [(some (lit ("title")), some (lit ("T")))]

/-- C7 counterexample: re-importing a one-row CSV whose row has no `case_id`
creates the test case a second time — MySQL unique indexes admit repeated
`NULL`s, so no duplicate is detected: the second import reports
`testcases_created = 1` and `duplicates_skipped = 0`, not 0 and 1. -/
theorem reimport_not_idempotent_without_case_id :
    (import_records [recT] ((import_records [recT] emptyStore).2.2)).1 = ⟨0, 1, 0⟩
    ∧ ((import_records [recT] ((import_records [recT] emptyStore).2.2)).1).testcases_created
        ≠ 0 := by
  refine ⟨by decide, by decide⟩

/-- The dedup key of a normalized row: `(suite_name, case_id)`. -/
def rowKey (r : NormalizedRow) : PyStr × Option PyStr := (r.suite_name, r.case_id)

/-- One import-loop step over a session whose every visible suite is committed
and whose row is already present: the session and counters come back unchanged
except for one more skipped duplicate. -/
theorem importStep_dup (st1 : Store) (cache : SuiteCache) (cnt : ImportCounts)
    (r : NormalizedRow)
    (hc : ∀ p ∈ cache, p.2 ∈ st1.suites ∧ p.2.name = p.1)
    (hex : ∃ su ∈ st1.suites, su.name = r.suite_name)
    (hall : ∀ su ∈ st1.suites, su.name = r.suite_name →
        ∃ c, r.case_id = some c
          ∧ ∃ tc ∈ st1.test_cases, tc.suite_id = su.id ∧ tc.case_id = some c) :
    ∃ cache', (∀ p ∈ cache', p.2 ∈ st1.suites ∧ p.2.name = p.1)
      ∧ importStep (sessOf st1, cache, cnt) r
          = (sessOf st1, cache',
             ⟨cnt.suites_created, cnt.testcases_created, cnt.duplicates_skipped + 1⟩) := by
  have hconfOf : ∀ su : Suite, su ∈ st1.suites → su.name = r.suite_name →
      caseConflict (sessOf st1) su.id r.case_id = true := by
    intro su hmem hname
    obtain ⟨c, hcid, tc, htc_mem, htc_sid, htc_cid⟩ := hall su hmem hname
    rw [hcid]
    unfold caseConflict allCases sessOf
    simp only [List.append_nil]
    rw [List.any_eq_true]
    exact ⟨tc, htc_mem, by simp [htc_sid, htc_cid]⟩
  cases hfind : cache.find? (fun p => p.1 == r.suite_name) with
  | some p =>
    have hp := hc p (List.mem_of_find?_eq_some hfind)
    have hname : p.1 = r.suite_name := by
      have := List.find?_some hfind
      simpa using this
    have hconf := hconfOf p.2 hp.1 (hp.2.trans hname)
    refine ⟨cache, hc, ?_⟩
    simp only [importStep, resolveSuite, hfind, hconf, if_true]
    rfl
  | none =>
    have hsu : findSuiteByName (sessOf st1) r.suite_name
        = (st1.suites).find? (fun su => su.name == r.suite_name) := by
      unfold findSuiteByName allSuites sessOf
      rw [List.append_nil]
    cases hfind2 : (st1.suites).find? (fun su => su.name == r.suite_name) with
    | none =>
      exfalso
      obtain ⟨su, hmem, hnm⟩ := hex
      rw [List.find?_eq_none] at hfind2
      exact hfind2 su hmem (by simp [hnm])
    | some su =>
      have hmem := List.mem_of_find?_eq_some hfind2
      have hnm : su.name = r.suite_name := by
        have := List.find?_some hfind2
        simpa using this
      have hconf := hconfOf su hmem hnm
      refine ⟨cache ++ [(r.suite_name, su)], ?_, ?_⟩
      · intro p hp
        rcases List.mem_append.mp hp with h1 | h1
        · exact hc p h1
        · simp only [List.mem_singleton] at h1
          subst h1
          exact ⟨hmem, hnm⟩
      · simp only [importStep, resolveSuite, hfind, hsu, hfind2, hconf, if_true]
        rfl

/-- Running the import loop over rows that are all already present commits
nothing: the session is unchanged and every row is counted as a duplicate. -/
theorem runRows_all_dup (st1 : Store) (rows : List NormalizedRow)
    (hrows : ∀ r ∈ rows,
      (∃ su ∈ st1.suites, su.name = r.suite_name)
      ∧ (∀ su ∈ st1.suites, su.name = r.suite_name →
          ∃ c, r.case_id = some c
            ∧ ∃ tc ∈ st1.test_cases, tc.suite_id = su.id ∧ tc.case_id = some c)) :
    ∀ (cache : SuiteCache) (cnt : ImportCounts),
      (∀ p ∈ cache, p.2 ∈ st1.suites ∧ p.2.name = p.1) →
      ∃ cache', runRows rows (sessOf st1, cache, cnt)
          = (sessOf st1, cache',
             ⟨cnt.suites_created, cnt.testcases_created,
              cnt.duplicates_skipped + rows.length⟩) := by
  induction rows with
  | nil =>
    intro cache cnt hc
    exact ⟨cache, by simp [runRows]⟩
  | cons r rest ih =>
    intro cache cnt hc
    obtain ⟨hex, hall⟩ := hrows r (by simp)
    obtain ⟨cache1, hc1, hstep⟩ := importStep_dup st1 cache cnt r hc hex hall
    obtain ⟨cache', hrun⟩ := ih (fun x hx => hrows x (by simp [hx])) cache1
      ⟨cnt.suites_created, cnt.testcases_created, cnt.duplicates_skipped + 1⟩ hc1
    refine ⟨cache', ?_⟩
    show runRows rest (importStep (sessOf st1, cache, cnt) r) = _
    rw [hstep, hrun]
    simp only [List.length_cons]
    have harith : cnt.duplicates_skipped + 1 + rest.length
        = cnt.duplicates_skipped + (rest.length + 1) := by omega
    rw [harith]

/-- Invariant of the import loop during a first import into an empty store:
nothing is committed, pending suite names and ids are distinct and below the
autoincrement counter, the cache points into the pending suites, and every
pending case belongs to a pending suite. -/
def Inv1 (s : Sess) (cache : SuiteCache) : Prop :=
  s.committedSuites = [] ∧ s.committedCases = []
  ∧ (s.pendSuites.map Suite.name).Nodup
  ∧ (∀ su ∈ s.pendSuites, su.id < s.nextSuiteId)
  ∧ (s.pendSuites.map Suite.id).Nodup
  ∧ (∀ p ∈ cache, p.2 ∈ s.pendSuites ∧ p.2.name = p.1)
  ∧ (∀ tc ∈ s.pendCases, ∃ su ∈ s.pendSuites, tc.suite_id = su.id)

/-- Functional description of `resolveSuite` over a session with no committed
suites: it returns a suite with the requested name, touches no pending case,
and either reuses a pending suite or appends a fresh one. -/
theorem resolveSuite_spec (s : Sess) (cache : SuiteCache) (cnt : ImportCounts)
    (name : PyStr) (hcommitted : s.committedSuites = [])
    (hcache : ∀ p ∈ cache, p.2 ∈ s.pendSuites ∧ p.2.name = p.1) :
    ∃ sA cacheA cntA suR,
      resolveSuite s cache cnt name = (sA, cacheA, cntA, suR)
      ∧ suR.name = name
      ∧ sA.committedSuites = s.committedSuites
      ∧ sA.committedCases = s.committedCases
      ∧ sA.pendCases = s.pendCases
      ∧ sA.nextCaseId = s.nextCaseId
      ∧ suR ∈ sA.pendSuites
      ∧ (∀ p ∈ cacheA, p.2 ∈ sA.pendSuites ∧ p.2.name = p.1)
      ∧ ((sA.pendSuites = s.pendSuites ∧ sA.nextSuiteId = s.nextSuiteId)
         ∨ (sA.pendSuites = s.pendSuites ++ [⟨s.nextSuiteId, name⟩]
            ∧ suR = ⟨s.nextSuiteId, name⟩
            ∧ sA.nextSuiteId = s.nextSuiteId + 1
            ∧ ∀ su ∈ s.pendSuites, su.name ≠ name)) := by
  cases hfind : cache.find? (fun p => p.1 == name) with
  | some p =>
    have hp := hcache p (List.mem_of_find?_eq_some hfind)
    have hname : p.1 = name := by
      have := List.find?_some hfind
      simpa using this
    refine ⟨s, cache, cnt, p.2, ?_, hp.2.trans hname, rfl, rfl, rfl, rfl, hp.1,
      hcache, Or.inl ⟨rfl, rfl⟩⟩
    simp only [resolveSuite, hfind]
  | none =>
    have hvis : allSuites s = s.pendSuites := by
      unfold allSuites
      rw [hcommitted, List.nil_append]
    cases hfind2 : findSuiteByName s name with
    | some su =>
      have hmem : su ∈ s.pendSuites := by
        have := List.mem_of_find?_eq_some hfind2
        rwa [hvis] at this
      have hnm : su.name = name := by
        have := List.find?_some hfind2
        simpa using this
      refine ⟨s, cache ++ [(name, su)], cnt, su, ?_, hnm, rfl, rfl, rfl, rfl, hmem,
        ?_, Or.inl ⟨rfl, rfl⟩⟩
      · simp only [resolveSuite, hfind, hfind2]
      · intro p hp
        rcases List.mem_append.mp hp with h1 | h1
        · exact hcache p h1
        · simp only [List.mem_singleton] at h1
          subst h1
          exact ⟨hmem, hnm⟩
    | none =>
      have hfresh : ∀ su ∈ s.pendSuites, su.name ≠ name := by
        intro su hmem
        have h2 : ∀ x ∈ allSuites s, ¬((fun su => su.name == name) x = true) := by
          rw [← List.find?_eq_none]
          exact hfind2
        have := h2 su (by rw [hvis]; exact hmem)
        simpa using this
      refine ⟨{ s with pendSuites := s.pendSuites ++ [⟨s.nextSuiteId, name⟩], nextSuiteId := s.nextSuiteId + 1 },
        cache ++ [(name, ⟨s.nextSuiteId, name⟩)],
        { cnt with suites_created := cnt.suites_created + 1 },
        ⟨s.nextSuiteId, name⟩, ?_, rfl, rfl, rfl, rfl, rfl, ?_, ?_,
        Or.inr ⟨rfl, rfl, rfl, hfresh⟩⟩
      · simp only [resolveSuite, hfind, hfind2]
      · exact List.mem_append.mpr (Or.inr (by simp))
      · intro p hp
        rcases List.mem_append.mp hp with h1 | h1
        · have := hcache p h1
          exact ⟨List.mem_append.mpr (Or.inl this.1), this.2⟩
        · simp only [List.mem_singleton] at h1
          subst h1
          exact ⟨List.mem_append.mpr (Or.inr (by simp)), rfl⟩

/-- First import of rows with distinct `(suite_name, case_id)` keys into a
transaction holding none of them: no conflict ever fires, nothing is rolled
back, and every row ends up pending, attached to a pending suite of the row's
suite name. -/
theorem run1 (rows : List NormalizedRow) :
    ∀ (s : Sess) (cache : SuiteCache) (cnt : ImportCounts),
      (rows.map rowKey).Nodup →
      Inv1 s cache →
      (∀ r ∈ rows, ∀ su ∈ s.pendSuites, su.name = r.suite_name →
        ∀ tc ∈ s.pendCases, ¬(tc.suite_id = su.id ∧ tc.case_id = r.case_id)) →
      ∃ s' cache' cnt',
        runRows rows (s, cache, cnt) = (s', cache', cnt')
        ∧ Inv1 s' cache'
        ∧ (∃ ns, s'.pendSuites = s.pendSuites ++ ns)
        ∧ (∃ nc, s'.pendCases = s.pendCases ++ nc)
        ∧ (∀ r ∈ rows, ∃ su tc, su ∈ s'.pendSuites ∧ su.name = r.suite_name
            ∧ tc ∈ s'.pendCases ∧ tc.suite_id = su.id ∧ tc.case_id = r.case_id) := by
  induction rows with
  | nil =>
    intro s cache cnt _ hinv _
    exact ⟨s, cache, cnt, rfl, hinv, ⟨[], by simp⟩, ⟨[], by simp⟩, by simp⟩
  | cons r rest ih =>
    intro s cache cnt hnodup hinv hfresh
    obtain ⟨hcomS, hcomC, hnames, hlt, hids, hcache, hlink⟩ := hinv
    obtain ⟨sA, cacheA, cntA, suR, hres, hsuRname, hAcomS, hAcomC, hApend, hAnext,
      hsuRmem, hcacheA, hbranch⟩ :=
      resolveSuite_spec s cache cnt r.suite_name hcomS hcache
    have hkeyfresh : rowKey r ∉ rest.map rowKey := (List.nodup_cons.mp hnodup).1
    have hnodup' : (rest.map rowKey).Nodup := (List.nodup_cons.mp hnodup).2
    -- branch-independent facts about the post-resolution suite list
    have hfacts : ((sA.pendSuites.map Suite.name).Nodup
        ∧ (∀ su ∈ sA.pendSuites, su.id < sA.nextSuiteId)
        ∧ (sA.pendSuites.map Suite.id).Nodup
        ∧ (∃ ns0, sA.pendSuites = s.pendSuites ++ ns0)
        ∧ (∀ tc ∈ s.pendCases, ∀ su ∈ sA.pendSuites, tc.suite_id = su.id →
            su ∈ s.pendSuites)) := by
      rcases hbranch with ⟨hsame, hnextEq⟩ | ⟨hext, hsuRdef, hnextEq, hnotname⟩
      · rw [hsame, hnextEq]
        exact ⟨hnames, hlt, hids, ⟨[], by simp⟩, fun tc _ su hsu _ => hsu⟩
      · refine ⟨?_, ?_, ?_, ⟨_, hext⟩, ?_⟩
        · rw [hext, List.map_append]
          simp only [List.map_singleton]
          rw [List.nodup_append]
          refine ⟨hnames, List.nodup_singleton _, ?_⟩
          intro a ha hb
          simp only [List.mem_singleton] at hb
          obtain ⟨su, hsu, hsuname⟩ := List.mem_map.mp ha
          exact hnotname su hsu (hsuname.trans hb)
        · intro su hsu
          rw [hext] at hsu
          rw [hnextEq]
          rcases List.mem_append.mp hsu with h1 | h1
          · have := hlt su h1
            omega
          · simp only [List.mem_singleton] at h1
            subst h1
            show s.nextSuiteId < s.nextSuiteId + 1
            omega
        · rw [hext, List.map_append]
          simp only [List.map_singleton]
          rw [List.nodup_append]
          refine ⟨hids, List.nodup_singleton _, ?_⟩
          intro a ha hb
          simp only [List.mem_singleton] at hb
          obtain ⟨su, hsu, hsuid⟩ := List.mem_map.mp ha
          have hlt' := hlt su hsu
          have hb' : a = s.nextSuiteId := hb
          omega
        · intro tc htc su hsu hsid
          rw [hext] at hsu
          rcases List.mem_append.mp hsu with h1 | h1
          · exact h1
          · exfalso
            simp only [List.mem_singleton] at h1
            subst h1
            obtain ⟨su0, hsu0, htcsid⟩ := hlink tc htc
            have := hlt su0 hsu0
            have hsid' : tc.suite_id = s.nextSuiteId := hsid
            omega
    obtain ⟨f1, f2, f3, ⟨ns0, f4⟩, f5⟩ := hfacts
    -- the duplicate check cannot fire
    have hnoconf : caseConflict sA suR.id r.case_id = false := by
      cases hcid : r.case_id with
      | none => rfl
      | some c =>
        unfold caseConflict allCases
        rw [hAcomC, hcomC, List.nil_append, hApend]
        rw [List.any_eq_false]
        intro tc htc
        simp only [Bool.and_eq_true, beq_iff_eq, not_and]
        intro hsid hcid2
        have hsu' : suR ∈ s.pendSuites := f5 tc htc suR hsuRmem hsid
        exact hfresh r (by simp) suR hsu' hsuRname tc htc
          ⟨hsid, by rw [hcid2, ← hcid]⟩
    -- one loop iteration inserts the row
    have hstep : importStep (s, cache, cnt) r
        = ({ sA with pendCases := sA.pendCases ++ [mkTestCase suR.id r sA.nextCaseId sA.nextCaseId], nextCaseId := sA.nextCaseId + 1 },
           cacheA, { cntA with testcases_created := cntA.testcases_created + 1 }) := by
      simp only [importStep, hres, hnoconf]
      rfl
    have hinv1 : Inv1 { sA with pendCases := sA.pendCases ++ [mkTestCase suR.id r sA.nextCaseId sA.nextCaseId], nextCaseId := sA.nextCaseId + 1 } cacheA := by
      refine ⟨hAcomS.trans hcomS, hAcomC.trans hcomC, f1, f2, f3, hcacheA, ?_⟩
      intro tc htc
      rcases List.mem_append.mp htc with h1 | h1
      · rw [hApend] at h1
        obtain ⟨su0, hsu0, htcsid⟩ := hlink tc h1
        refine ⟨su0, ?_, htcsid⟩
        show su0 ∈ sA.pendSuites
        rw [f4]
        exact List.mem_append.mpr (Or.inl hsu0)
      · simp only [List.mem_singleton] at h1
        subst h1
        exact ⟨suR, hsuRmem, rfl⟩
    have hfresh1 : ∀ r' ∈ rest,
        ∀ su ∈ ({ sA with pendCases := sA.pendCases ++ [mkTestCase suR.id r sA.nextCaseId sA.nextCaseId], nextCaseId := sA.nextCaseId + 1 } : Sess).pendSuites,
        su.name = r'.suite_name →
        ∀ tc ∈ ({ sA with pendCases := sA.pendCases ++ [mkTestCase suR.id r sA.nextCaseId sA.nextCaseId], nextCaseId := sA.nextCaseId + 1 } : Sess).pendCases,
          ¬(tc.suite_id = su.id ∧ tc.case_id = r'.case_id) := by
      intro r' hr' su hsu hname' tc htc hcontra
      obtain ⟨hsid, hcid2⟩ := hcontra
      have hsu' : su ∈ sA.pendSuites := hsu
      have htc' : tc ∈ sA.pendCases ++ [mkTestCase suR.id r sA.nextCaseId sA.nextCaseId] := htc
      rcases List.mem_append.mp htc' with h1 | h1
      · have h1' : tc ∈ s.pendCases := by rwa [hApend] at h1
        have hsmem : su ∈ s.pendSuites := f5 tc h1' su hsu' hsid
        exact hfresh r' (by simp [hr']) su hsmem hname' tc h1' ⟨hsid, hcid2⟩
      · simp only [List.mem_singleton] at h1
        subst h1
        have hsuid : su.id = suR.id := hsid.symm
        have hsusuR : su = suR :=
          List.inj_on_of_nodup_map f3 hsu' hsuRmem hsuid
        have hkeyeq : rowKey r' = rowKey r := by
          unfold rowKey
          rw [← hname', hsusuR, hsuRname, ← hcid2]
          rfl
        exact hkeyfresh (hkeyeq ▸ List.mem_map.mpr ⟨r', hr', rfl⟩)
    obtain ⟨s', cache', cnt', hrun, hinv', ⟨ns, hns⟩, ⟨nc, hnc⟩, hgoods⟩ :=
      ih { sA with pendCases := sA.pendCases ++ [mkTestCase suR.id r sA.nextCaseId sA.nextCaseId], nextCaseId := sA.nextCaseId + 1 } cacheA
        { cntA with testcases_created := cntA.testcases_created + 1 }
        hnodup' hinv1 hfresh1
    refine ⟨s', cache', cnt', ?_, hinv', ?_, ?_, ?_⟩
    · show runRows rest (importStep (s, cache, cnt) r) = _
      rw [hstep]
      exact hrun
    · refine ⟨ns0 ++ ns, ?_⟩
      have hns' : s'.pendSuites = sA.pendSuites ++ ns := hns
      rw [hns', f4, List.append_assoc]
    · refine ⟨mkTestCase suR.id r sA.nextCaseId sA.nextCaseId :: nc, ?_⟩
      have hnc' : s'.pendCases
          = (sA.pendCases ++ [mkTestCase suR.id r sA.nextCaseId sA.nextCaseId]) ++ nc := hnc
      rw [hnc', hApend, List.append_assoc]
      rfl
    · intro r'' hr''
      rcases List.mem_cons.mp hr'' with h1 | h1
      · subst h1
        refine ⟨suR, mkTestCase suR.id r'' sA.nextCaseId sA.nextCaseId, ?_, hsuRname, ?_, rfl, rfl⟩
        · have hns' : s'.pendSuites = sA.pendSuites ++ ns := hns
          rw [hns']
          exact List.mem_append.mpr (Or.inl hsuRmem)
        · have hnc' : s'.pendCases
              = (sA.pendCases ++ [mkTestCase suR.id r'' sA.nextCaseId sA.nextCaseId]) ++ nc := hnc
          rw [hnc']
          exact List.mem_append.mpr (Or.inl (List.mem_append.mpr (Or.inr (by simp))))
      · exact hgoods r'' h1

/-- C7 as amended: when every normalized row has a case id and the rows'
`(suite_name, case_id)` keys are pairwise distinct, re-importing the same rows
into the store produced by the first import creates nothing: the second import
reports 0 suites created, 0 test cases created, one skipped duplicate per row,
and leaves the store unchanged. -/
theorem reimport_identical_counts (rows : List NormalizedRow)
    (hsome : ∀ r ∈ rows, r.case_id ≠ none)
    (hnodup : (rows.map rowKey).Nodup) :
    (persist_rows rows ((persist_rows rows emptyStore).2)).1 = ⟨0, 0, rows.length⟩
    ∧ (persist_rows rows ((persist_rows rows emptyStore).2)).2
        = (persist_rows rows emptyStore).2 := by
  have hinv0 : Inv1 (sessOf emptyStore) [] := by
    refine ⟨rfl, rfl, ?_, ?_, ?_, ?_, ?_⟩ <;> simp [sessOf, emptyStore]
  obtain ⟨s', cache', cnt', hrun, hinv', hnsE, hncE, hgoods⟩ :=
    run1 rows (sessOf emptyStore) [] ⟨0, 0, 0⟩ hnodup hinv0 (by
      intro r hr su hsu
      simp [sessOf, emptyStore] at hsu)
  obtain ⟨hcomS', hcomC', hnames', hlt', hids', hcache', hlink'⟩ := hinv'
  have hp1 : persist_rows rows emptyStore = (cnt', commitSess s') := by
    unfold persist_rows
    rw [hrun]
  have hst1S : (commitSess s').suites = s'.pendSuites := by
    show s'.committedSuites ++ s'.pendSuites = s'.pendSuites
    rw [hcomS', List.nil_append]
  have hst1C : (commitSess s').test_cases = s'.pendCases := by
    show s'.committedCases ++ s'.pendCases = s'.pendCases
    rw [hcomC', List.nil_append]
  have hrows2 : ∀ r ∈ rows,
      (∃ su ∈ (commitSess s').suites, su.name = r.suite_name)
      ∧ (∀ su ∈ (commitSess s').suites, su.name = r.suite_name →
          ∃ c, r.case_id = some c
            ∧ ∃ tc ∈ (commitSess s').test_cases,
                tc.suite_id = su.id ∧ tc.case_id = some c) := by
    intro r hr
    obtain ⟨su, tc, hsu, hname, htc, hsid, hcid⟩ := hgoods r hr
    constructor
    · exact ⟨su, by rw [hst1S]; exact hsu, hname⟩
    · intro su2 hsu2 hname2
      have hsu2' : su2 ∈ s'.pendSuites := by rwa [hst1S] at hsu2
      have heq : su2 = su :=
        List.inj_on_of_nodup_map hnames' hsu2' hsu (by rw [hname2, hname])
      subst heq
      cases hc : r.case_id with
      | none => exact absurd hc (hsome r hr)
      | some c =>
        refine ⟨c, rfl, tc, by rw [hst1C]; exact htc, hsid, by rw [hcid, hc]⟩
  obtain ⟨cache2, hrun2⟩ := runRows_all_dup (commitSess s') rows hrows2 [] ⟨0, 0, 0⟩
    (by intro p hp; simp at hp)
  have hp2 : persist_rows rows (commitSess s')
      = (⟨0, 0, rows.length⟩, commitSess (sessOf (commitSess s'))) := by
    unfold persist_rows
    rw [hrun2]
    simp
  have hcommit : commitSess (sessOf (commitSess s')) = commitSess s' := by
    show (⟨(commitSess s').suites ++ [], (commitSess s').test_cases ++ [],
          (commitSess s').nextSuiteId, (commitSess s').nextCaseId⟩ : Store)
        = commitSess s'
    rw [List.append_nil, List.append_nil]
  constructor
  · rw [hp1]
    show (persist_rows rows (commitSess s')).1 = ⟨0, 0, rows.length⟩
    rw [hp2]
  · rw [hp1]
    show (persist_rows rows (commitSess s')).2 = commitSess s'
    rw [hp2]
    exact hcommit

/-- Witness for `reimport_identical_counts` on a concrete two-row file. -/
theorem reimport_identical_counts_witness :
    let rowC : NormalizedRow :=
      ⟨lit ("S"), some (lit ("c2")), lit ("T3"), none, none, none, none, none,
       none, none, none⟩
    (persist_rows [rowA, rowC] ((persist_rows [rowA, rowC] emptyStore).2)).1
      = ⟨0, 0, 2⟩ := by
  intro rowC
  have h := reimport_identical_counts [rowA, rowC] (by decide) (by decide)
  exact h.1
